import Mathlib

/-!
# linefix: scan and fix of missing trailing newlines

A shallow embedding of `linefix.go` (`getFiles`, `checkForNewlines`,
`addNewline`, and the non-plumbing part of `scanFunction` / `fixFunction`),
together with the part of the Go standard library the code runs on
(`filepath.Walk`, `os.Open`, `File.Stat`, `File.ReadAt`, `os.OpenFile` with
`O_APPEND|O_WRONLY`, `File.WriteString`).

The file system has two parts.  The name space is a tree of directories whose
leaves are the non-directory entries: regular files, symbolic links and
special files (FIFO, socket, device).  The files themselves live in a store
indexed by a file number (the inode).  A leaf records the file that `os.Open`
and `os.OpenFile` reach through its name, so two hard links, or a symbolic
link and its target, carry the same file number, and a write through one name
is read through the other.  A link may name a file that has no name of its own
in the tree handed to the command.

A path is the list of its components, the first one being the name of the
root that was handed to the command (`filepath.Join` is list concatenation).
Failures of the operating system are part of the state: an entry whose `lstat`
fails, a directory that cannot be listed, and per file the failure of each
system call the code makes.  A path is resolved through directories only: a
symbolic link in a place other than the last component is not followed (the
paths `getFiles` returns have none, since `filepath.Walk` does not descend
into a symbolic link).

Flag parsing, the progress bar, the sleep between files and the colours of the
output are left out; a run is described by the error it returns, the count and
the list it prints, and the file system it leaves.  Statements about distinct
paths assume `Entry.wf`: no directory lists one name twice.
-/

namespace Linefix

/-! ## Data model -/

/-- A byte of file content. -/
abbrev Byte := Fin 256

/-- A path, as the list of its components (root name first). -/
abbrev Path := List String

/-- A file as the system calls of the code see it: its bytes, and which of the
calls fail on it.  `openErr`: `os.Open(file)` fails; `statErr`: `f.Stat()`
fails; `readErr`: `f.ReadAt` fails for a reason of its own; `appendErr`:
`os.OpenFile(file, O_APPEND|O_WRONLY, 0644)` fails; `writeErr`:
`f.WriteString` fails (nothing is written). -/
structure FileData where
  content : List Byte
  openErr : Bool
  statErr : Bool
  readErr : Bool
  appendErr : Bool
  writeErr : Bool
  deriving DecidableEq, Repr

/-- What `lstat` says a non-directory entry is. -/
inductive Kind where
  | regular
  | symlink
  | special
  deriving DecidableEq, Repr

/-- An entry of the name space.  `leaf` is a non-directory entry; `target` is
the number of the file that opening this name reaches: for a regular file its
own, for a symbolic link that of the regular file it resolves to, and `none`
when opening the name reaches no regular file (a dangling link, a link to a
directory, a special file).  The children of a directory are kept in the order
in which `readDirNames` returns them (Go sorts them); `listable = false` means
that reading the directory fails.  `broken` is a name whose `lstat` fails; as
a root it stands for a path that does not exist. -/
inductive Entry where
  | leaf (name : String) (kind : Kind) (target : Option Nat)
  | dir (name : String) (listable : Bool) (children : List Entry)
  | broken (name : String)
  deriving Repr

/-- The file system: the tree below the directory argument of the command,
and the files by number. -/
structure FileSystem where
  root : Entry
  store : Nat → FileData

/-- The last component of the path of an entry (`info.Name()`). -/
def Entry.name : Entry → String
  | .leaf n _ _ => n
  | .dir n _ _ => n
  | .broken n => n

/-- The result of `os.FileInfo` that the code looks at. -/
structure FileInfo where
  Name : String
  IsDir : Bool
  deriving DecidableEq, Repr

/-- The `error` values that reach the walk function. -/
inductive WalkError where
  | SkipDir
  | SkipAll
  | lstat (path : Path)
  | readDir (path : Path)
  deriving DecidableEq, Repr

/-- The call `os.Lstat`: `none` is an error.  Every leaf, a symbolic link to a
directory included, is not a directory. -/
def Lstat : Entry → Option FileInfo
  | .leaf n _ _ => some ⟨n, false⟩
  | .dir n _ _ => some ⟨n, true⟩
  | .broken _ => none

/-! ## Path resolution (what `os.Open` and `os.OpenFile` reach) -/

mutual
/-- The entry reached from an entry by the remaining components. -/
def Entry.descend : Entry → Path → Option Entry
  | e, [] => some e
  | .dir _ _ cs, n :: rest => descendIn cs n rest
  | .leaf _ _ _, _ :: _ => none
  | .broken _, _ :: _ => none
/-- The entry reached from a directory listing by a name and the remaining
components. -/
def descendIn : List Entry → String → Path → Option Entry
  | [], _, _ => none
  | e :: es, n, rest => if e.name = n then e.descend rest else descendIn es n rest
end

/-- The entry a path names in the tree, if any. -/
def entryAt (root : Entry) : Path → Option Entry
  | [] => none
  | n :: rest => descendIn [root] n rest

/-- The number of the file that opening a path reaches, if any. -/
def inodeAt (root : Entry) (p : Path) : Option Nat :=
  match entryAt root p with
  | some (.leaf _ _ target) => target
  | _ => none

/-- The file that opening a path reaches, if any. -/
def lookup (fs : FileSystem) (p : Path) : Option FileData :=
  (inodeAt fs.root p).map fs.store

/-- An open file (`*os.File`): the number of the file and what it was when
opened. -/
structure File where
  ino : Nat
  data : FileData

/-! ## `filepath.Walk` -/

/-- The type `filepath.WalkFunc`, with the variables the closure captures
passed as a state. -/
abbrev WalkFunc (σ : Type) := Path → Option FileInfo → Option WalkError → σ → σ × Option WalkError

mutual
/-- The function `walk` of `path/filepath`: it is called on an entry whose
`lstat` succeeded. -/
def walk {σ : Type} (walkFn : WalkFunc σ) (path : Path) : Entry → σ → σ × Option WalkError
  | .leaf n _ _, s => walkFn path (some ⟨n, false⟩) none s
  | .dir n listable cs, s =>
    let err : Option WalkError := if listable then none else some (.readDir path)
    let r1 := walkFn path (some ⟨n, true⟩) err s
    if err ≠ none ∨ r1.2 ≠ none then r1 else walkNames walkFn path cs r1.1
  | .broken _, s => (s, none) -- not reached: the callers test `Lstat` first
/-- The loop over the names of a directory in `walk`. -/
def walkNames {σ : Type} (walkFn : WalkFunc σ) (path : Path) : List Entry → σ → σ × Option WalkError
  | [], s => (s, none)
  | e :: es, s =>
    let filename := path ++ [e.name]
    match Lstat e with
    | none =>
      let r := walkFn filename none (some (.lstat filename)) s
      if r.2 ≠ none ∧ r.2 ≠ some .SkipDir then r else walkNames walkFn path es r.1
    | some fileInfo =>
      let r := walk walkFn filename e s
      if r.2 ≠ none ∧ (fileInfo.IsDir = false ∨ r.2 ≠ some .SkipDir) then r
      else walkNames walkFn path es r.1
end

/-- The function `filepath.Walk`. -/
def Walk {σ : Type} (root : Entry) (walkFn : WalkFunc σ) (s : σ) : σ × Option WalkError :=
  let path : Path := [root.name]
  let r := match Lstat root with
    | none => walkFn path none (some (.lstat path)) s
    | some _ => walk walkFn path root s
  if r.2 = some .SkipDir ∨ r.2 = some .SkipAll then (r.1, none) else r

/-! ## `linefix.go` -/

/-- The closure handed to `filepath.Walk` in `getFiles`; the state is the
captured slice `files`. -/
def walkFn : WalkFunc (List Path) := fun path info err files =>
  match err with
  | some e => (files, some e)
  | none =>
    match info with
    | none => (files, none) -- not reached: `Walk` passes a nil `info` only with an error
    | some info =>
      if info.IsDir = true ∧ info.Name = ".git" then (files, some .SkipDir)
      else if info.IsDir = false then
        if info.Name = ".git" then (files, none)
        else (files ++ [path], none)
      else (files, none)

/-- The function `getFiles` on the directory argument that is the root of
`fs`: the slice and the error it returns. -/
def getFiles (fs : FileSystem) : List Path × Option WalkError :=
  let r := Walk fs.root walkFn []
  if r.2 ≠ none then ([], none) else (r.1, none)

/-- The call `os.Open(file)`: `none` is an error. -/
def osOpen (fs : FileSystem) (file : Path) : Option File :=
  match inodeAt fs.root file with
  | none => none
  | some i => if (fs.store i).openErr then none else some ⟨i, fs.store i⟩

/-- The call `f.Stat()`, reduced to the size it reports. -/
def Stat (f : File) : Option Int :=
  if f.data.statErr then none else some (f.data.content.length : Int)

/-- The call `f.ReadAt(bs, off)` for a one-byte buffer: the byte read, or
`none` for an error (negative offset, I/O error, end of file). -/
def ReadAt (f : File) (off : Int) : Option Byte :=
  if off < 0 then none
  else if f.data.readErr then none
  else f.data.content.get? off.toNat

/-- The function `checkForNewlines`. -/
def checkForNewlines (fs : FileSystem) (file : Path) : Bool :=
  match osOpen fs file with
  | none => false
  | some f =>
    match Stat f with
    | none => false
    | some size =>
      match ReadAt f (size - 1) with
      | none => false
      | some b => if b = 13 ∨ b = 10 then true else false

/-- The call `os.OpenFile(file, os.O_APPEND|os.O_WRONLY, 0644)`. -/
def osOpenFileAppend (fs : FileSystem) (file : Path) : Option File :=
  match inodeAt fs.root file with
  | none => none
  | some i => if (fs.store i).appendErr then none else some ⟨i, fs.store i⟩

/-- The call `f.WriteString(s)` on a file opened for appending: the new file
system, or `none` for an error.  The bytes go to the end of the file with the
number of `f`, whatever name it was opened by. -/
def WriteString (fs : FileSystem) (f : File) (s : List Byte) : Option FileSystem :=
  if f.data.writeErr then none
  else some { fs with store := fun j =>
    if j = f.ino then { fs.store j with content := (fs.store j).content ++ s } else fs.store j }

/-- The function `addNewline`: the file system it leaves. -/
def addNewline (fs : FileSystem) (file : Path) : FileSystem :=
  match osOpenFileAppend fs file with
  | none => fs
  | some f =>
    match WriteString fs f [13] with
    | none => fs
    | some fs1 => fs1

/-- The loop of `scanFunction` over `files`, from the current `affectedFiles`. -/
def scanLoop (fs : FileSystem) : List Path → List Path → List Path
  | [], affectedFiles => affectedFiles
  | file :: rest, affectedFiles =>
    if checkForNewlines fs file = false then scanLoop fs rest (affectedFiles ++ [file])
    else scanLoop fs rest affectedFiles

/-- The loop of `fixFunction` over `files`: the file system and the
`affectedFiles` it ends with. -/
def fixLoop : FileSystem → List Path → List Path → FileSystem × List Path
  | fs, [], affectedFiles => (fs, affectedFiles)
  | fs, file :: rest, affectedFiles =>
    if checkForNewlines fs file = false then
      fixLoop (addNewline fs file) rest (affectedFiles ++ [file])
    else fixLoop fs rest affectedFiles

/-- What a run prints: the count and the paths. -/
structure Report where
  count : Nat
  files : List Path
  deriving DecidableEq, Repr

/-- The end of a run: the error returned to `main` (non-nil means exit code
1), what was printed, and the file system left behind. -/
structure Outcome where
  err : Option WalkError
  report : Option Report
  fs : FileSystem

/-- The function `scanFunction` on the directory argument that is the root of
`fs`, after flag parsing. -/
def scanFunction (verbose : Bool) (fs : FileSystem) : Outcome :=
  if verbose then ⟨none, none, fs⟩
  else
    let r := getFiles fs
    match r.2 with
    | some err => ⟨some err, none, fs⟩
    | none =>
      let affectedFiles := scanLoop fs r.1 []
      ⟨none, some ⟨affectedFiles.length, affectedFiles⟩, fs⟩

/-- The function `fixFunction` on the directory argument that is the root of
`fs`, after flag parsing. -/
def fixFunction (verbose : Bool) (fs : FileSystem) : Outcome :=
  if verbose then ⟨none, none, fs⟩
  else
    let r := getFiles fs
    match r.2 with
    | some err => ⟨some err, none, fs⟩
    | none =>
      let r1 := fixLoop fs r.1 []
      ⟨none, some ⟨r1.2.length, r1.2⟩, r1.1⟩

/-! ## Well-formedness and vocabulary of the statements -/

mutual
/-- No directory of the tree lists one name twice. -/
def Entry.wf : Entry → Bool
  | .dir _ _ cs => wfIn cs
  | .leaf _ _ _ => true
  | .broken _ => true
/-- No directory below a listing lists one name twice, nor does the listing. -/
def wfIn : List Entry → Bool
  | [] => true
  | e :: es => e.wf && decide (e.name ∉ es.map Entry.name) && wfIn es
end

mutual
/-- Some entry of the tree has the name `m`. -/
def Entry.hasName (m : String) : Entry → Bool
  | .leaf n _ _ => decide (n = m)
  | .dir n _ cs => decide (n = m) || hasNameIn m cs
  | .broken n => decide (n = m)
/-- Some entry below a listing has the name `m`. -/
def hasNameIn (m : String) : List Entry → Bool
  | [] => false
  | e :: es => e.hasName m || hasNameIn m es
end

/-- The entry is a non-directory entry: a regular file, a symbolic link or a
special file. -/
def Entry.isLeaf : Entry → Bool
  | .leaf _ _ _ => true
  | .dir _ _ _ => false
  | .broken _ => false

/-- The entry is a regular file. -/
def Entry.isRegular : Entry → Bool
  | .leaf _ .regular _ => true
  | _ => false

/-- The checker can read the file: open, stat and read succeed. -/
def FileData.readable (d : FileData) : Prop :=
  d.openErr = false ∧ d.statErr = false ∧ d.readErr = false

/-- The fixer can append to the file: open for append and write succeed. -/
def FileData.writable (d : FileData) : Prop :=
  d.appendErr = false ∧ d.writeErr = false

/-- The content ends in LF (0x0A) or CR (0x0D). -/
def terminated (c : List Byte) : Prop :=
  c.getLast? = some 10 ∨ c.getLast? = some 13

/-- The file a path reaches can be read by the checker and appended to by the
fixer. -/
def fixable (fs : FileSystem) (p : Path) : Prop :=
  ∃ d, lookup fs p = some d ∧ d.readable ∧ d.writable

/-- No two of the paths that `getFiles` returns reach the same file: among
them there is no pair of hard links and no symbolic link to a listed file. -/
def unaliased (fs : FileSystem) : Prop :=
  ((getFiles fs).1.filterMap (inodeAt fs.root)).Nodup

instance (d : FileData) : Decidable d.readable := by
  unfold FileData.readable; infer_instance

instance (d : FileData) : Decidable d.writable := by
  unfold FileData.writable; infer_instance

instance (c : List Byte) : Decidable (terminated c) := by
  unfold terminated; infer_instance

instance (fs : FileSystem) : Decidable (unaliased fs) := by
  unfold unaliased; infer_instance

/-! ## File systems used in examples -/

/-- A file with the given bytes on which every system call succeeds. -/
def plain (c : List Byte) : FileData := ⟨c, false, false, false, false, false⟩

/-- The store that holds the listed files under the numbers 0, 1, 2, ... -/
def storeOf (l : List FileData) : Nat → FileData := fun i => l.getD i (plain [])

/-- The bytes of `hello`. -/
def hello : List Byte := [104, 101, 108, 108, 111]

/-- The tree `root/.git/config`, `root/readme.txt` (no terminator). -/
def gitTree : FileSystem :=
  ⟨.dir "root" true
      [.dir ".git" true [.leaf "config" .regular (some 0)],
       .leaf "readme.txt" .regular (some 1)],
    storeOf [plain hello, plain hello]⟩

/-- The scenarios of the specification in one directory: an empty `a.txt`,
`b.txt` holding `hello\n`, `c.txt` holding `hello`. -/
def sample : FileSystem :=
  ⟨.dir "root" true
      [.leaf "a.txt" .regular (some 0), .leaf "b.txt" .regular (some 1),
       .leaf "c.txt" .regular (some 2)],
    storeOf [plain [], plain (hello ++ [10]), plain hello]⟩

/-- A single empty file handed to the command as its root. -/
def emptyFile : FileSystem :=
  ⟨.leaf "a.txt" .regular (some 0), storeOf [plain []]⟩

/-- A tree with a subdirectory and an empty directory, without `.git`. -/
def nested : FileSystem :=
  ⟨.dir "root" true
      [.leaf "a.txt" .regular (some 0),
       .dir "sub" true [.dir "empty" true [], .leaf "x" .regular (some 1)],
       .leaf "z" .regular (some 2)],
    storeOf [plain hello, plain [], plain (hello ++ [13])]⟩

/-- A directory with `b.txt` holding `hello\n`, which may be written but not
read (mode 0200). -/
def writeOnly : FileSystem :=
  ⟨.dir "root" true [.leaf "b.txt" .regular (some 0)],
    storeOf [⟨hello ++ [10], true, false, false, false, false⟩]⟩

/-- A directory with `c.txt` holding `hello`, which may be read but not
written (mode 0400). -/
def readOnly : FileSystem :=
  ⟨.dir "root" true [.leaf "c.txt" .regular (some 0)],
    storeOf [⟨hello, false, false, false, true, false⟩]⟩

/-- A directory holding a regular file named `.git`. -/
def gitFile : FileSystem :=
  ⟨.dir "root" true [.leaf ".git" .regular (some 0)], storeOf [plain hello]⟩

/-- A directory with `a.txt` and a subdirectory that cannot be listed. -/
def unlistable : FileSystem :=
  ⟨.dir "root" true [.leaf "a.txt" .regular (some 0), .dir "sub" false []],
    storeOf [plain hello]⟩

/-- A root path that does not exist. -/
def missing : FileSystem := ⟨.broken "missing", storeOf []⟩

/-- The tree `root/.git/config` (holding `hello`) with the symbolic link
`root/cfg -> .git/config`. -/
def gitLinked : FileSystem :=
  ⟨.dir "root" true
      [.dir ".git" true [.leaf "config" .regular (some 0)],
       .leaf "cfg" .symlink (some 0)],
    storeOf [plain hello]⟩

/-- A directory in which `a.txt` and `b.txt` are two hard links to one file
holding `hello`. -/
def hardLinked : FileSystem :=
  ⟨.dir "root" true [.leaf "a.txt" .regular (some 0), .leaf "b.txt" .regular (some 0)],
    storeOf [plain hello]⟩

/-- A directory in which `a.txt` and `b.txt` are two hard links to one file
holding `hello` that may be written but not read. -/
def hardLinkedWriteOnly : FileSystem :=
  ⟨.dir "root" true [.leaf "a.txt" .regular (some 0), .leaf "b.txt" .regular (some 0)],
    storeOf [⟨hello, true, false, false, false, false⟩]⟩

/-- A directory with the regular file `a.txt`, a dangling symbolic link `ln`,
a symbolic link `up` to a directory and a FIFO `pipe`. -/
def withLinks : FileSystem :=
  ⟨.dir "root" true
      [.leaf "a.txt" .regular (some 0), .leaf "ln" .symlink none,
       .leaf "pipe" .special none, .leaf "up" .symlink none],
    storeOf [plain (hello ++ [10])]⟩

/-! ## Auxiliary definitions of the proofs -/

mutual
/-- The paths the walk of `getFiles` collects below an entry at `path` when no
error stops it. -/
def Entry.listing (path : Path) : Entry → List Path
  | .leaf n _ _ => if n = ".git" then [] else [path]
  | .dir n _ cs => if n = ".git" then [] else listingIn path cs
  | .broken _ => []
/-- The paths collected from a directory listing. -/
def listingIn (path : Path) : List Entry → List Path
  | [] => []
  | e :: es => e.listing (path ++ [e.name]) ++ listingIn path es
end

/-- What `addNewline` does to the file it is called on. -/
def appendCR (d : FileData) : FileData :=
  if d.appendErr = true ∨ d.writeErr = true then d else { d with content := d.content ++ [13] }

/-! ## The walk of `getFiles` -/

mutual
theorem walk_spec : ∀ (e : Entry) (path : Path) (s : List Path),
    (walk walkFn path e s).2 ≠ some .SkipAll ∧
    ((walk walkFn path e s).2 = some .SkipDir → ∀ i, Lstat e = some i → i.IsDir = true) ∧
    (((walk walkFn path e s).2 = none ∨ (walk walkFn path e s).2 = some .SkipDir) →
      (walk walkFn path e s).1 = s ++ e.listing path)
  | .leaf n k t, path, s => by
    by_cases h : n = ".git" <;> simp [walk, walkFn, Entry.listing, h]
  | .broken n, path, s => by simp [walk, Entry.listing, Lstat]
  | .dir n l cs, path, s => by
    have ih := walkNames_spec cs path s
    cases l <;> by_cases h : n = ".git" <;> simp [walk, walkFn, Entry.listing, h, Lstat]
    · exact ⟨ih.2.1, fun h => h.elim ih.2.2 (fun h => absurd h ih.1)⟩
theorem walkNames_spec : ∀ (es : List Entry) (path : Path) (s : List Path),
    (walkNames walkFn path es s).2 ≠ some .SkipDir ∧
    (walkNames walkFn path es s).2 ≠ some .SkipAll ∧
    ((walkNames walkFn path es s).2 = none →
      (walkNames walkFn path es s).1 = s ++ listingIn path es)
  | [], path, s => by simp [walkNames, listingIn]
  | e :: es, path, s => by
    have ih1 := walk_spec e (path ++ [e.name]) s
    have ih2 := walkNames_spec es path (walk walkFn (path ++ [e.name]) e s).1
    cases hL : Lstat e with
    | none =>
      cases e <;> simp [Lstat] at hL
      simp [walkNames, Lstat, walkFn]
    | some i =>
      simp only [walkNames, hL, listingIn]
      split_ifs with hc
      · refine ⟨?_, ih1.1, fun h => absurd h hc.1⟩
        intro h; rcases hc.2 with h2 | h2
        · have := ih1.2.1 h i hL
          simp [h2] at this
        · exact h2 h
      · have hq : (walk walkFn (path ++ [e.name]) e s).2 = none ∨
            (walk walkFn (path ++ [e.name]) e s).2 = some .SkipDir := by
          by_contra hn
          push_neg at hn
          exact hc ⟨hn.1, Or.inr hn.2⟩
        refine ⟨ih2.1, ih2.2.1, fun h => ?_⟩
        rw [ih2.2.2 h, ih1.2.2 hq, List.append_assoc]
end

theorem Walk_spec (root : Entry) :
    (Walk root walkFn []).2 = none → (Walk root walkFn []).1 = root.listing [root.name] := by
  have h := walk_spec root [root.name] []
  cases hL : Lstat root with
  | none => cases root <;> simp [Lstat] at hL; simp [Walk, Lstat, walkFn]
  | some i =>
    simp only [Walk, hL]
    split_ifs with hc
    · intro _
      have := h.2.2 (hc.elim (fun h => Or.inr h) (fun h2 => absurd h2 h.1))
      simpa using this
    · intro h0
      simpa using h.2.2 (Or.inl h0)

theorem getFiles_eq (fs : FileSystem) :
    getFiles fs =
      (if (Walk fs.root walkFn []).2 = none then fs.root.listing [fs.root.name] else [], none) := by
  unfold getFiles
  by_cases h : (Walk fs.root walkFn []).2 = none
  · simp [h, Walk_spec fs.root h]
  · simp [h]

/-! ## The collected paths and the entries of the tree -/

mutual
theorem mem_listing_of_descend : ∀ (e : Entry) (path rel : Path) (x : Entry),
    e.descend rel = some x → x.isLeaf = true → e.name ≠ ".git" → ".git" ∉ rel →
    path ++ rel ∈ e.listing path
  | .leaf n k t, path, rel, x, h, _, hn, _ => by
    cases rel with
    | nil => simp [Entry.name] at hn; simp [Entry.listing, hn]
    | cons a r => simp [Entry.descend] at h
  | .broken n, path, rel, x, h, hx, _, _ => by
    cases rel with
    | nil => simp [Entry.descend] at h; subst h; simp [Entry.isLeaf] at hx
    | cons a r => simp [Entry.descend] at h
  | .dir n l cs, path, rel, x, h, hx, hn, hr => by
    cases rel with
    | nil => simp [Entry.descend] at h; subst h; simp [Entry.isLeaf] at hx
    | cons a r =>
      simp [Entry.name] at hn
      simp only [Entry.descend] at h
      simpa [Entry.listing, hn] using mem_listingIn_of_descendIn cs path a r x h hx hr
theorem mem_listingIn_of_descendIn : ∀ (es : List Entry) (path : Path) (n : String) (rel : Path)
    (x : Entry), descendIn es n rel = some x → x.isLeaf = true → ".git" ∉ n :: rel →
    path ++ n :: rel ∈ listingIn path es
  | [], path, n, rel, x, h, _, _ => by simp [descendIn] at h
  | e :: es, path, n, rel, x, h, hx, hr => by
    simp only [descendIn] at h
    simp only [listingIn, List.mem_append]
    split_ifs at h with hc
    · left
      have hn : e.name ≠ ".git" := by
        rw [hc]; intro h2; exact hr (by simp [h2])
      have hrel : ".git" ∉ rel := fun h2 => hr (List.mem_cons_of_mem _ h2)
      have := mem_listing_of_descend e (path ++ [e.name]) rel x h hx hn hrel
      simpa [hc] using this
    · right
      exact mem_listingIn_of_descendIn es path n rel x h hx hr
end

mutual
theorem listing_shape : ∀ (e : Entry) (path p : Path), p ∈ e.listing path →
    e.name ≠ ".git" ∧ ∃ rel, p = path ++ rel ∧ ".git" ∉ rel ∧
      (e.wf = true → ∃ x, e.descend rel = some x ∧ x.isLeaf = true)
  | .leaf n k t, path, p, h => by
    by_cases hn : n = ".git"
    · simp [Entry.listing, hn] at h
    · simp [Entry.listing, hn] at h
      exact ⟨by simpa [Entry.name] using hn, [], by simp [h], by simp,
        fun _ => ⟨_, rfl, rfl⟩⟩
  | .broken n, path, p, h => by simp [Entry.listing] at h
  | .dir n l cs, path, p, h => by
    by_cases hn : n = ".git"
    · simp [Entry.listing, hn] at h
    · simp only [Entry.listing, hn, if_false] at h
      obtain ⟨m, rel, _, hp, hg, hw⟩ := listingIn_shape cs path p h
      exact ⟨by simpa [Entry.name] using hn, m :: rel, hp, hg,
        by simpa [Entry.wf, Entry.descend] using hw⟩
theorem listingIn_shape : ∀ (es : List Entry) (path p : Path), p ∈ listingIn path es →
    ∃ n rel, n ∈ es.map Entry.name ∧ p = path ++ n :: rel ∧ ".git" ∉ n :: rel ∧
      (wfIn es = true → ∃ x, descendIn es n rel = some x ∧ x.isLeaf = true)
  | [], path, p, h => by simp [listingIn] at h
  | e :: es, path, p, h => by
    simp only [listingIn, List.mem_append] at h
    rcases h with h | h
    · obtain ⟨hn, rel, hp, hg, hw⟩ := listing_shape e (path ++ [e.name]) p h
      refine ⟨e.name, rel, by simp, by simp [hp], ?_, ?_⟩
      · simp only [List.mem_cons, not_or]
        exact ⟨fun h2 => hn h2.symm, hg⟩
      · intro hwf
        simp only [wfIn, Bool.and_eq_true] at hwf
        simpa [descendIn] using hw hwf.1.1
    · obtain ⟨n, rel, hmem, hp, hg, hw⟩ := listingIn_shape es path p h
      refine ⟨n, rel, List.mem_cons_of_mem _ hmem, hp, hg, ?_⟩
      intro hwf
      simp only [wfIn, Bool.and_eq_true, decide_eq_true_eq] at hwf
      have hne : e.name ≠ n := fun h2 => hwf.1.2 (h2 ▸ hmem)
      simpa [descendIn, hne] using hw hwf.2
end

mutual
theorem listing_nodup : ∀ (e : Entry) (path : Path), e.wf = true → (e.listing path).Nodup
  | .leaf n k t, path, _ => by by_cases hn : n = ".git" <;> simp [Entry.listing, hn]
  | .broken n, path, _ => by simp [Entry.listing]
  | .dir n l cs, path, h => by
    by_cases hn : n = ".git"
    · simp [Entry.listing, hn]
    · simpa [Entry.listing, hn] using listingIn_nodup cs path (by simpa [Entry.wf] using h)
theorem listingIn_nodup : ∀ (es : List Entry) (path : Path), wfIn es = true →
    (listingIn path es).Nodup
  | [], path, _ => by simp [listingIn]
  | e :: es, path, h => by
    simp only [wfIn, Bool.and_eq_true, decide_eq_true_eq] at h
    simp only [listingIn]
    refine List.Nodup.append (listing_nodup e _ h.1.1) (listingIn_nodup es path h.2) ?_
    intro p h1 h2
    obtain ⟨_, rel, hp, _, _⟩ := listing_shape e (path ++ [e.name]) p h1
    obtain ⟨n, rel2, hmem, hp2, _, _⟩ := listingIn_shape es path p h2
    rw [hp, List.append_assoc, List.append_cancel_left_eq] at hp2
    simp only [List.singleton_append, List.cons.injEq] at hp2
    exact h.1.2 (hp2.1 ▸ hmem)
end

/-! ## Names along a path -/

mutual
theorem descend_last : ∀ (e : Entry) (n : String) (rel : Path) (x : Entry),
    e.name = n → e.descend rel = some x → (n :: rel).getLast? = some x.name
  | e, n, [], x, hn, h => by
    cases e <;> simp [Entry.descend] at h <;> subst h <;> simpa using hn.symm
  | .leaf _ _ _, n, a :: r, x, _, h => by simp [Entry.descend] at h
  | .broken _, n, a :: r, x, _, h => by simp [Entry.descend] at h
  | .dir m l cs, n, a :: r, x, _, h => by
    simp only [Entry.descend] at h
    have := descendIn_last cs a r x h
    rw [List.getLast?_cons_cons]
    exact this
theorem descendIn_last : ∀ (es : List Entry) (n : String) (rel : Path) (x : Entry),
    descendIn es n rel = some x → (n :: rel).getLast? = some x.name
  | [], n, rel, x, h => by simp [descendIn] at h
  | e :: es, n, rel, x, h => by
    simp only [descendIn] at h
    split_ifs at h with hc
    · exact descend_last e n rel x hc h
    · exact descendIn_last es n rel x h
end

theorem entryAt_git_mem (root : Entry) (q : Path) (l : Bool) (cs : List Entry)
    (h : entryAt root q = some (.dir ".git" l cs)) : ".git" ∈ q := by
  cases q with
  | nil => simp [entryAt] at h
  | cons n rel =>
    have := descendIn_last [root] n rel _ h
    simp only [Entry.name] at this
    exact List.mem_of_getLast?_eq_some this

mutual
theorem descend_names (m : String) : ∀ (e : Entry) (rel : Path) (x : Entry),
    e.descend rel = some x → e.hasName m = false → m ∉ rel
  | e, [], x, _, _ => by simp
  | .leaf _ _ _, a :: r, x, h, _ => by simp [Entry.descend] at h
  | .broken _, a :: r, x, h, _ => by simp [Entry.descend] at h
  | .dir n l cs, a :: r, x, h, hm => by
    simp only [Entry.descend] at h
    simp only [Entry.hasName, Bool.or_eq_false_iff] at hm
    exact descendIn_names m cs a r x h hm.2
theorem descendIn_names (m : String) : ∀ (es : List Entry) (n : String) (rel : Path)
    (x : Entry), descendIn es n rel = some x → hasNameIn m es = false → m ∉ n :: rel
  | [], n, rel, x, h, _ => by simp [descendIn] at h
  | e :: es, n, rel, x, h, hm => by
    simp only [descendIn] at h
    simp only [hasNameIn, Bool.or_eq_false_iff] at hm
    split_ifs at h with hc
    · have h1 := descend_names m e rel x h hm.1
      have h2 : e.name ≠ m := by
        intro h3
        have : e.hasName m = true := by cases e <;> simp_all [Entry.hasName, Entry.name]
        simp [this] at hm
      simp only [List.mem_cons, not_or]
      exact ⟨fun h3 => h2 (hc.trans h3.symm), h1⟩
    · exact descendIn_names m es n rel x h hm.2
end

/-! ## `getFiles` -/

theorem getFiles_err (fs : FileSystem) : (getFiles fs).2 = none := by
  rw [getFiles_eq]

theorem mem_getFiles (fs : FileSystem) (p : Path) (h : p ∈ (getFiles fs).1) :
    ".git" ∉ p ∧ (fs.root.wf = true → ∃ x, entryAt fs.root p = some x ∧ x.isLeaf = true) := by
  rw [getFiles_eq] at h
  by_cases h0 : (Walk fs.root walkFn []).2 = none
  · simp only [h0, if_true] at h
    obtain ⟨hn, rel, hp, hg, hw⟩ := listing_shape fs.root [fs.root.name] p h
    subst hp
    refine ⟨?_, fun hwf => ?_⟩
    · simp only [List.singleton_append, List.mem_cons, not_or]
      exact ⟨fun h2 => hn h2.symm, hg⟩
    · simpa [entryAt, descendIn] using hw hwf
  · simp [h0] at h

theorem getFiles_mem_of_entry (fs : FileSystem) (herr : (Walk fs.root walkFn []).2 = none)
    (p : Path) (x : Entry) (h : entryAt fs.root p = some x) (hx : x.isLeaf = true)
    (hg : ".git" ∉ p) : p ∈ (getFiles fs).1 := by
  rw [getFiles_eq]
  simp only [herr, if_true]
  cases p with
  | nil => simp [entryAt] at h
  | cons n rel =>
    simp only [entryAt] at h
    have := mem_listingIn_of_descendIn [fs.root] [] n rel x h hx hg
    have hn : fs.root.name = n := by
      by_contra hne
      simp [descendIn, hne] at h
    simpa [listingIn, hn] using this

theorem getFiles_nodup (fs : FileSystem) (hwf : fs.root.wf = true) : (getFiles fs).1.Nodup := by
  rw [getFiles_eq]
  split_ifs
  · exact listing_nodup fs.root _ hwf
  · exact List.nodup_nil

/-! ## `addNewline` and `checkForNewlines` -/

theorem addNewline_root (fs : FileSystem) (p : Path) : (addNewline fs p).root = fs.root := by
  unfold addNewline osOpenFileAppend WriteString
  cases inodeAt fs.root p with
  | none => rfl
  | some i =>
    by_cases ha : (fs.store i).appendErr = true
    · simp [ha]
    · by_cases hw : (fs.store i).writeErr = true
      · simp [ha, hw]
      · simp [ha, hw]

theorem addNewline_store (fs : FileSystem) (p : Path) (j : Nat) :
    (addNewline fs p).store j =
      if inodeAt fs.root p = some j then appendCR (fs.store j) else fs.store j := by
  unfold addNewline osOpenFileAppend WriteString
  cases hi : inodeAt fs.root p with
  | none => simp
  | some i =>
    by_cases ha : (fs.store i).appendErr = true
    · by_cases hj : i = j
      · subst hj; simp [ha, appendCR]
      · simp [ha, hj]
    · by_cases hw : (fs.store i).writeErr = true
      · by_cases hj : i = j
        · subst hj; simp [ha, hw, appendCR]
        · simp [ha, hw, hj]
      · by_cases hj : i = j
        · subst hj; simp [ha, hw, appendCR]
        · have hj2 : ¬ j = i := fun h => hj h.symm
          simp [ha, hw, hj, hj2]

theorem lookup_addNewline (fs : FileSystem) (p q : Path) :
    lookup (addNewline fs p) q =
      if inodeAt fs.root q = inodeAt fs.root p then (lookup fs q).map appendCR
      else lookup fs q := by
  unfold lookup
  rw [addNewline_root]
  cases hq : inodeAt fs.root q with
  | none => simp
  | some j =>
    simp only [Option.map_some', addNewline_store]
    by_cases h : inodeAt fs.root p = some j
    · simp [h]
    · have h2 : ¬ some j = inodeAt fs.root p := fun h3 => h h3.symm
      simp [h, h2]

theorem getFiles_addNewline (fs : FileSystem) (p : Path) :
    getFiles (addNewline fs p) = getFiles fs := by
  simp only [getFiles, addNewline_root]

theorem ReadAt_last (f : File) (h : f.data.readErr = false) :
    ReadAt f ((f.data.content.length : Int) - 1) = f.data.content.getLast? := by
  unfold ReadAt
  cases hc : f.data.content with
  | nil => simp
  | cons a l =>
    have h1 : ¬ ((((a :: l).length : Nat) : Int) - 1 < 0) := by simp
    have h2 : ((((a :: l).length : Nat) : Int) - 1).toNat = (a :: l).length - 1 := by simp
    rw [if_neg h1, h2, List.getLast?_eq_getElem?]
    simp [h]

theorem check_iff (fs : FileSystem) (file : Path) :
    checkForNewlines fs file = true ↔
      ∃ d, lookup fs file = some d ∧ d.readable ∧ d.content ≠ [] ∧ terminated d.content := by
  unfold checkForNewlines osOpen Stat lookup FileData.readable terminated
  cases hl : inodeAt fs.root file with
  | none => simp
  | some i =>
    by_cases ho : (fs.store i).openErr = true
    · simp [ho]
    · by_cases hs : (fs.store i).statErr = true
      · simp [ho, hs]
      · by_cases hr : (fs.store i).readErr = true
        · simp [ho, hs, hr, ReadAt]
        · simp only [Bool.not_eq_true] at ho hs hr
          have hread := ReadAt_last ⟨i, fs.store i⟩ hr
          simp only at hread
          cases hg : (fs.store i).content.getLast? with
          | none => simp [ho, hs, hr, hread, hg]
          | some b =>
            have : (fs.store i).content ≠ [] := by
              intro h0; simp [h0] at hg
            by_cases h13 : b = 13
            · simp [ho, hs, hr, hread, hg, h13, this]
            · by_cases h10 : b = 10
              · simp [ho, hs, hr, hread, hg, h10, this]
              · simp [ho, hs, hr, hread, hg, h13, h10]

theorem check_congr (fs1 fs2 : FileSystem) (p : Path) (h : lookup fs1 p = lookup fs2 p) :
    checkForNewlines fs1 p = checkForNewlines fs2 p := by
  rw [Bool.eq_iff_iff, check_iff, check_iff, h]

theorem appendCR_eq (d : FileData) (hw : d.writable) :
    appendCR d = { d with content := d.content ++ [13] } := by
  unfold FileData.writable at hw
  simp [appendCR, hw.1, hw.2]

theorem appendCR_readable (d : FileData) : (appendCR d).readable ↔ d.readable := by
  unfold appendCR FileData.readable
  split_ifs <;> simp

theorem appendCR_writable (d : FileData) : (appendCR d).writable ↔ d.writable := by
  unfold appendCR FileData.writable
  split_ifs <;> simp

theorem appendCR_terminated (d : FileData) (h : terminated d.content) :
    terminated (appendCR d).content := by
  unfold appendCR
  split_ifs
  · exact h
  · right; simp

theorem terminated_ne_nil (c : List Byte) (h : terminated c) : c ≠ [] := by
  intro h0
  simp [terminated, h0] at h

theorem check_false_of_not_terminated (fs : FileSystem) (p : Path) (d : FileData)
    (hl : lookup fs p = some d) (hnt : ¬ terminated d.content) :
    checkForNewlines fs p = false := by
  rw [← Bool.not_eq_true, check_iff]
  rintro ⟨d0, h0, _, _, ht⟩
  rw [hl] at h0
  cases h0
  exact hnt ht

theorem check_true_of_terminated (fs : FileSystem) (p : Path) (d : FileData)
    (hl : lookup fs p = some d) (hr : d.readable) (ht : terminated d.content) :
    checkForNewlines fs p = true := by
  rw [check_iff]
  exact ⟨d, hl, hr, terminated_ne_nil _ ht, ht⟩

theorem lookup_eq_some (fs : FileSystem) (p : Path) (d : FileData) :
    lookup fs p = some d ↔ ∃ i, inodeAt fs.root p = some i ∧ fs.store i = d := by
  unfold lookup
  cases inodeAt fs.root p <;> simp

/-- Once a check succeeds, no later `addNewline` makes it fail. -/
theorem check_addNewline_mono (fs : FileSystem) (p q : Path)
    (h : checkForNewlines fs q = true) : checkForNewlines (addNewline fs p) q = true := by
  rw [check_iff] at h ⊢
  obtain ⟨d, hl, hr, _, ht⟩ := h
  rw [lookup_addNewline]
  split_ifs
  · refine ⟨appendCR d, by simp [hl], (appendCR_readable d).mpr hr, ?_, appendCR_terminated d ht⟩
    exact terminated_ne_nil _ (appendCR_terminated d ht)
  · exact ⟨d, hl, hr, terminated_ne_nil _ ht, ht⟩

theorem fixable_addNewline (fs : FileSystem) (p q : Path) (h : fixable fs q) :
    fixable (addNewline fs p) q := by
  obtain ⟨d, hl, hr, hw⟩ := h
  unfold fixable
  rw [lookup_addNewline]
  split_ifs
  · exact ⟨appendCR d, by simp [hl], (appendCR_readable d).mpr hr, (appendCR_writable d).mpr hw⟩
  · exact ⟨d, hl, hr, hw⟩

theorem check_addNewline_self (fs : FileSystem) (p : Path) (h : fixable fs p) :
    checkForNewlines (addNewline fs p) p = true := by
  obtain ⟨d, hl, hr, hw⟩ := h
  apply check_true_of_terminated _ p { d with content := d.content ++ [13] }
  · rw [lookup_addNewline, if_pos rfl, hl, Option.map_some', appendCR_eq d hw]
  · exact hr
  · right; simp

/-! ## The loops of scan and fix -/

theorem scanLoop_eq (fs : FileSystem) (files aff : List Path) :
    scanLoop fs files aff = aff ++ files.filter (fun p => !checkForNewlines fs p) := by
  induction files generalizing aff with
  | nil => simp [scanLoop]
  | cons p rest ih =>
    simp only [scanLoop]
    by_cases hc : checkForNewlines fs p = false
    · simp [hc, ih]
    · simp only [Bool.not_eq_false] at hc
      simp [hc, ih]

theorem fixLoop_root (files : List Path) : ∀ (fs : FileSystem) (aff : List Path),
    (fixLoop fs files aff).1.root = fs.root := by
  induction files with
  | nil => intro fs aff; rfl
  | cons p rest ih =>
    intro fs aff
    simp only [fixLoop]
    split_ifs
    · rw [ih, addNewline_root]
    · exact ih fs aff

theorem fixLoop_mono (files : List Path) : ∀ (fs : FileSystem) (aff : List Path) (q : Path),
    checkForNewlines fs q = true → checkForNewlines (fixLoop fs files aff).1 q = true := by
  induction files with
  | nil => intro fs aff q h; exact h
  | cons p rest ih =>
    intro fs aff q h
    simp only [fixLoop]
    split_ifs
    · exact ih _ _ q (check_addNewline_mono fs p q h)
    · exact ih fs aff q h

theorem fixLoop_all (files : List Path) : ∀ (fs : FileSystem) (aff : List Path),
    (∀ p ∈ files, checkForNewlines fs p = false → fixable fs p) →
    ∀ p ∈ files, checkForNewlines (fixLoop fs files aff).1 p = true := by
  induction files with
  | nil => intro fs aff _ p hp; simp at hp
  | cons a rest ih =>
    intro fs aff hfix p hp
    simp only [fixLoop]
    by_cases hc : checkForNewlines fs a = false
    · simp only [hc, if_true]
      have hrest : ∀ r ∈ rest, checkForNewlines (addNewline fs a) r = false →
          fixable (addNewline fs a) r := by
        intro r hr h1
        apply fixable_addNewline
        apply hfix r (List.mem_cons_of_mem _ hr)
        by_contra h2
        simp only [Bool.not_eq_false] at h2
        rw [check_addNewline_mono fs a r h2] at h1
        exact Bool.noConfusion h1
      rcases List.mem_cons.mp hp with h | h
      · subst h
        exact fixLoop_mono rest _ _ p
          (check_addNewline_self fs p (hfix p (List.mem_cons_self _ _) hc))
      · exact ih _ _ hrest p h
    · simp only [hc, if_false]
      have hc2 : checkForNewlines fs a = true := by simpa using hc
      rcases List.mem_cons.mp hp with h | h
      · subst h
        exact fixLoop_mono rest _ _ p hc2
      · exact ih fs aff (fun r hr => hfix r (List.mem_cons_of_mem _ hr)) p h

/-- A file that is readable and terminated is never written by the loop. -/
theorem fixLoop_stable (files : List Path) : ∀ (fs : FileSystem) (aff : List Path) (i : Nat),
    (fs.store i).readable → terminated (fs.store i).content →
    (fixLoop fs files aff).1.store i = fs.store i := by
  induction files with
  | nil => intro fs aff i _ _; rfl
  | cons a rest ih =>
    intro fs aff i hr ht
    simp only [fixLoop]
    split_ifs with hc
    · have hst : (addNewline fs a).store i = fs.store i := by
        rw [addNewline_store, if_neg]
        intro hi
        have : checkForNewlines fs a = true :=
          check_true_of_terminated fs a _ ((lookup_eq_some fs a _).mpr ⟨i, hi, rfl⟩) hr ht
        rw [this] at hc
        exact Bool.noConfusion hc
      rw [ih _ _ i (by rw [hst]; exact hr) (by rw [hst]; exact ht), hst]
    · exact ih fs aff i hr ht

/-- A file that no path of the list reaches is not written by the loop. -/
theorem fixLoop_frame (files : List Path) : ∀ (fs : FileSystem) (aff : List Path) (i : Nat),
    (∀ p ∈ files, inodeAt fs.root p ≠ some i) →
    (fixLoop fs files aff).1.store i = fs.store i := by
  induction files with
  | nil => intro fs aff i _; rfl
  | cons a rest ih =>
    intro fs aff i h
    simp only [fixLoop]
    split_ifs
    · rw [ih _ _ i (by
        intro p hp
        rw [addNewline_root]
        exact h p (List.mem_cons_of_mem _ hp)), addNewline_store,
        if_neg (h a (List.mem_cons_self _ _))]
    · exact ih fs aff i (fun p hp => h p (List.mem_cons_of_mem _ hp))

/-- A readable, writable file without terminator that some path of the list
reaches gets exactly one 0x0D. -/
theorem fixLoop_once (files : List Path) : ∀ (fs : FileSystem) (aff : List Path) (i : Nat),
    (fs.store i).readable → (fs.store i).writable → ¬ terminated (fs.store i).content →
    (∃ p ∈ files, inodeAt fs.root p = some i) →
    (fixLoop fs files aff).1.store i =
      { fs.store i with content := (fs.store i).content ++ [13] } := by
  induction files with
  | nil => intro fs aff i _ _ _ h; simp at h
  | cons a rest ih =>
    intro fs aff i hr hw hnt hex
    by_cases hi : inodeAt fs.root a = some i
    · have hc : checkForNewlines fs a = false :=
        check_false_of_not_terminated fs a _ ((lookup_eq_some fs a _).mpr ⟨i, hi, rfl⟩) hnt
      have hst : (addNewline fs a).store i =
          { fs.store i with content := (fs.store i).content ++ [13] } := by
        rw [addNewline_store, if_pos hi, appendCR_eq _ hw]
      simp only [fixLoop, hc, if_true]
      rw [fixLoop_stable rest _ _ i (by rw [hst]; exact hr) (by rw [hst]; right; simp), hst]
    · obtain ⟨p, hp, hpi⟩ := hex
      have hp2 : p ∈ rest := by
        rcases List.mem_cons.mp hp with h | h
        · subst h; exact absurd hpi hi
        · exact h
      simp only [fixLoop]
      split_ifs
      · have hst : (addNewline fs a).store i = fs.store i := by
          rw [addNewline_store, if_neg hi]
        rw [ih _ _ i (by rw [hst]; exact hr) (by rw [hst]; exact hw) (by rw [hst]; exact hnt)
          ⟨p, hp2, by rw [addNewline_root]; exact hpi⟩, hst]
      · exact ih fs aff i hr hw hnt ⟨p, hp2, hpi⟩

theorem filter_sublist_of_imp {α : Type} (f g : α → Bool) (l : List α)
    (h : ∀ x ∈ l, f x = true → g x = true) : (l.filter f).Sublist (l.filter g) := by
  induction l with
  | nil => simp
  | cons a t ih =>
    have iht := ih (fun x hx => h x (List.mem_cons_of_mem _ hx))
    by_cases hf : f a = true
    · have hg := h a (List.mem_cons_self _ _) hf
      simp only [List.filter_cons, hf, hg, if_true]
      exact iht.cons₂ a
    · by_cases hg : g a = true
      · simp only [List.filter_cons, hf, hg, if_true, if_false]
        exact iht.cons a
      · simp only [List.filter_cons, hf, hg, if_false]
        exact iht

/-- What fix collects is a sublist of what scan collects on the same state. -/
theorem fixLoop_sublist (files : List Path) : ∀ (fs : FileSystem) (aff : List Path),
    ∃ l, (fixLoop fs files aff).2 = aff ++ l ∧
      l.Sublist (files.filter (fun p => !checkForNewlines fs p)) := by
  induction files with
  | nil => intro fs aff; exact ⟨[], by simp [fixLoop], by simp⟩
  | cons a rest ih =>
    intro fs aff
    by_cases hc : checkForNewlines fs a = false
    · obtain ⟨l, hl, hs⟩ := ih (addNewline fs a) (aff ++ [a])
      refine ⟨a :: l, by simp [fixLoop, hc, hl], ?_⟩
      simp only [List.filter_cons, hc, Bool.not_false, if_true]
      refine List.Sublist.cons₂ a (hs.trans (filter_sublist_of_imp _ _ rest ?_))
      intro r _ h1
      by_contra h2
      simp only [Bool.not_eq_true', Bool.not_eq_false] at h1 h2
      rw [check_addNewline_mono fs a r h2] at h1
      exact Bool.noConfusion h1
    · have hc2 : checkForNewlines fs a = true := by simpa using hc
      obtain ⟨l, hl, hs⟩ := ih fs aff
      refine ⟨l, by simp [fixLoop, hc2, hl], ?_⟩
      simpa [List.filter_cons, hc2] using hs

/-- A path that fails the check before the loop is collected by fix, or
reaches the same file as a path that is collected. -/
theorem fixLoop_covers (files : List Path) : ∀ (fs : FileSystem) (aff : List Path),
    ∀ p ∈ files, checkForNewlines fs p = false →
      p ∈ (fixLoop fs files aff).2 ∨
      ∃ q ∈ (fixLoop fs files aff).2, q ∈ files ∧ inodeAt fs.root q = inodeAt fs.root p := by
  induction files with
  | nil => intro fs aff p hp; simp at hp
  | cons a rest ih =>
    intro fs aff p hp hc
    have hmemaff : ∀ (fs1 : FileSystem) (x : Path), x ∈ (aff ++ [a]) →
        x ∈ (fixLoop fs1 rest (aff ++ [a])).2 := by
      intro fs1 x hx
      obtain ⟨l, hl, _⟩ := fixLoop_sublist rest fs1 (aff ++ [a])
      rw [hl]
      exact List.mem_append_left _ hx
    by_cases hca : checkForNewlines fs a = false
    · simp only [fixLoop, hca, if_true]
      have ha : a ∈ (fixLoop (addNewline fs a) rest (aff ++ [a])).2 :=
        hmemaff _ a (by simp)
      rcases List.mem_cons.mp hp with h | h
      · subst h
        exact Or.inl ha
      · by_cases hc1 : checkForNewlines (addNewline fs a) p = false
        · rcases ih (addNewline fs a) (aff ++ [a]) p h hc1 with h1 | ⟨q, hq, hqr, hqi⟩
          · exact Or.inl h1
          · rw [addNewline_root] at hqi
            exact Or.inr ⟨q, hq, List.mem_cons_of_mem _ hqr, hqi⟩
        · right
          refine ⟨a, ha, List.mem_cons_self _ _, ?_⟩
          by_contra hne
          apply hc1
          rw [← hc]
          apply check_congr
          rw [lookup_addNewline, if_neg (fun h2 => hne h2.symm)]
    · have hca2 : checkForNewlines fs a = true := by simpa using hca
      simp only [fixLoop, hca2]
      rw [show (if (true = false) then fixLoop (addNewline fs a) rest (aff ++ [a])
            else fixLoop fs rest aff) = fixLoop fs rest aff from rfl]
      rcases List.mem_cons.mp hp with h | h
      · subst h
        rw [hc] at hca2
        exact Bool.noConfusion hca2
      · rcases ih fs aff p h hc with h1 | ⟨q, hq, hqr, hqi⟩
        · exact Or.inl h1
        · exact Or.inr ⟨q, hq, List.mem_cons_of_mem _ hqr, hqi⟩

/-- When no two paths of the list reach the same file, fix collects what scan
collects. -/
theorem fixLoop_unaliased (files : List Path) : ∀ (fs : FileSystem) (aff : List Path),
    (files.filterMap (inodeAt fs.root)).Nodup →
    (fixLoop fs files aff).2 = aff ++ files.filter (fun p => !checkForNewlines fs p) := by
  induction files with
  | nil => intro fs aff _; simp [fixLoop]
  | cons a rest ih =>
    intro fs aff hnd
    by_cases hc : checkForNewlines fs a = false
    · have hsame : ∀ r ∈ rest, checkForNewlines (addNewline fs a) r = checkForNewlines fs r := by
        intro r hr
        apply check_congr
        rw [lookup_addNewline]
        split_ifs with h
        · cases hi : inodeAt fs.root a with
          | none =>
            rw [hi] at h
            simp [lookup, h]
          | some i =>
            rw [hi] at h
            rw [List.filterMap_cons, hi, List.nodup_cons] at hnd
            exact absurd (List.mem_filterMap.mpr ⟨r, hr, h⟩) hnd.1
        · rfl
      have hnd2 : (rest.filterMap (inodeAt (addNewline fs a).root)).Nodup := by
        rw [addNewline_root]
        rw [List.filterMap_cons] at hnd
        cases hi : inodeAt fs.root a with
        | none => simpa [hi] using hnd
        | some i =>
          rw [hi] at hnd
          exact (List.nodup_cons.mp hnd).2
      have hf : rest.filter (fun r => !checkForNewlines (addNewline fs a) r) =
          rest.filter (fun r => !checkForNewlines fs r) :=
        List.filter_congr (fun r hr => by rw [hsame r hr])
      simp only [fixLoop, hc, if_true]
      rw [ih _ _ hnd2, hf]
      simp [hc]
    · have hc2 : checkForNewlines fs a = true := by simpa using hc
      have hnd2 : (rest.filterMap (inodeAt fs.root)).Nodup := by
        rw [List.filterMap_cons] at hnd
        cases hi : inodeAt fs.root a with
        | none => simpa [hi] using hnd
        | some i =>
          rw [hi] at hnd
          exact (List.nodup_cons.mp hnd).2
      simp only [fixLoop, hc2]
      rw [show (if (true = false) then fixLoop (addNewline fs a) rest (aff ++ [a])
            else fixLoop fs rest aff) = fixLoop fs rest aff from rfl, ih fs aff hnd2]
      simp [hc2]

/-! ## `scanFunction` and `fixFunction` -/

theorem scan_report (fs : FileSystem) :
    (scanFunction false fs).report =
      some ⟨((getFiles fs).1.filter (fun p => !checkForNewlines fs p)).length,
        (getFiles fs).1.filter (fun p => !checkForNewlines fs p)⟩ := by
  simp [scanFunction, getFiles_err, scanLoop_eq]

theorem fix_report_eq (fs : FileSystem) :
    (fixFunction false fs).report =
      some ⟨(fixLoop fs (getFiles fs).1 []).2.length, (fixLoop fs (getFiles fs).1 []).2⟩ := by
  simp [fixFunction, getFiles_err]

theorem fix_fs_eq (fs : FileSystem) :
    (fixFunction false fs).fs = (fixLoop fs (getFiles fs).1 []).1 := by
  simp [fixFunction, getFiles_err]

theorem fix_root (v : Bool) (fs : FileSystem) : (fixFunction v fs).fs.root = fs.root := by
  cases v with
  | true => simp [fixFunction]
  | false => rw [fix_fs_eq, fixLoop_root]

theorem fix_getFiles (fs : FileSystem) : getFiles (fixFunction false fs).fs = getFiles fs := by
  simp only [getFiles, fix_root]

theorem fix_report_sublist (fs : FileSystem) :
    ∃ l, (fixFunction false fs).report = some ⟨l.length, l⟩ ∧
      l.Sublist ((getFiles fs).1.filter (fun p => !checkForNewlines fs p)) := by
  obtain ⟨l, hl, hs⟩ := fixLoop_sublist (getFiles fs).1 fs []
  simp only [List.nil_append] at hl
  exact ⟨l, by rw [fix_report_eq, hl], hs⟩

theorem fix_report_covers (fs : FileSystem) (l : List Path)
    (h : (fixFunction false fs).report = some ⟨l.length, l⟩) :
    ∀ p ∈ (getFiles fs).1, checkForNewlines fs p = false →
      p ∈ l ∨ ∃ q ∈ l, inodeAt fs.root q = inodeAt fs.root p := by
  rw [fix_report_eq] at h
  simp only [Option.some.injEq, Report.mk.injEq] at h
  intro p hp hc
  rcases fixLoop_covers (getFiles fs).1 fs [] p hp hc with h1 | ⟨q, hq, _, hqi⟩
  · exact Or.inl (h.2 ▸ h1)
  · exact Or.inr ⟨q, h.2 ▸ hq, hqi⟩

theorem scan_report_subset (v : Bool) (fs : FileSystem) (rep : Report)
    (h : (scanFunction v fs).report = some rep) : ∀ p ∈ rep.files, p ∈ (getFiles fs).1 := by
  cases v with
  | true => simp [scanFunction] at h
  | false =>
    rw [scan_report] at h
    simp only [Option.some.injEq] at h
    subst h
    intro p hp
    exact (List.mem_filter.mp hp).1

theorem fix_report_subset (v : Bool) (fs : FileSystem) (rep : Report)
    (h : (fixFunction v fs).report = some rep) : ∀ p ∈ rep.files, p ∈ (getFiles fs).1 := by
  cases v with
  | true => simp [fixFunction] at h
  | false =>
    obtain ⟨l, hl, hs⟩ := fix_report_sublist fs
    rw [hl] at h
    simp only [Option.some.injEq] at h
    subst h
    intro p hp
    exact (List.mem_filter.mp (hs.subset hp)).1

theorem fix_not_reported (fs : FileSystem) (p : Path) (hc : checkForNewlines fs p = true)
    (rep : Report) (h : (fixFunction false fs).report = some rep) : p ∉ rep.files := by
  obtain ⟨l, hl, hs⟩ := fix_report_sublist fs
  rw [hl] at h
  simp only [Option.some.injEq] at h
  subst h
  intro hp
  have := (List.mem_filter.mp (hs.subset hp)).2
  simp [hc] at this

theorem fix_store_frame (v : Bool) (fs : FileSystem) (i : Nat)
    (h : ∀ p ∈ (getFiles fs).1, inodeAt fs.root p ≠ some i) :
    (fixFunction v fs).fs.store i = fs.store i := by
  cases v with
  | true => simp [fixFunction]
  | false => rw [fix_fs_eq, fixLoop_frame _ _ _ _ h]

theorem fix_lookup_stable (fs : FileSystem) (p : Path) (d : FileData)
    (hl : lookup fs p = some d) (hr : d.readable) (ht : terminated d.content) :
    lookup (fixFunction false fs).fs p = some d := by
  obtain ⟨i, hi, hd⟩ := (lookup_eq_some fs p d).mp hl
  subst hd
  rw [lookup_eq_some]
  exact ⟨i, by rw [fix_root, hi], by rw [fix_fs_eq, fixLoop_stable _ _ _ i hr ht]⟩

theorem fix_lookup_once (fs : FileSystem) (p : Path) (d : FileData)
    (hp : p ∈ (getFiles fs).1) (hl : lookup fs p = some d) (hr : d.readable)
    (hw : d.writable) (hnt : ¬ terminated d.content) :
    lookup (fixFunction false fs).fs p = some { d with content := d.content ++ [13] } := by
  obtain ⟨i, hi, hd⟩ := (lookup_eq_some fs p d).mp hl
  subst hd
  rw [lookup_eq_some]
  exact ⟨i, by rw [fix_root, hi],
    by rw [fix_fs_eq, fixLoop_once _ _ _ i hr hw hnt ⟨p, hp, hi⟩]⟩

/-! ## The claims -/

/-- C1: `checkForNewlines` returns true exactly when the file exists, open,
stat and read succeed, the file is not empty and its last byte is LF (0x0A) or
CR (0x0D); in every other case (no such file, a failing call, an empty file,
another last byte) it returns false. -/
theorem C1_checkForNewlines_iff (fs : FileSystem) (file : Path) :
    checkForNewlines fs file = true ↔
      ∃ d, lookup fs file = some d ∧ d.openErr = false ∧ d.statErr = false ∧
        d.readErr = false ∧ d.content ≠ [] ∧
        (d.content.getLast? = some 10 ∨ d.content.getLast? = some 13) := by
  rw [check_iff]
  simp only [FileData.readable, terminated, and_assoc]

/-- C2: on an existing file that can be opened for appending and written,
`addNewline` leaves the old bytes followed by the single byte 0x0D (one byte
more); no other file is changed, so every path that reaches another file reads
as before; the tree of names is the same and lists the same files. -/
theorem C2_addNewline_appends (fs : FileSystem) (file : Path) (d : FileData)
    (h : lookup fs file = some d) (hw : d.writable) :
    lookup (addNewline fs file) file = some { d with content := d.content ++ [13] } ∧
    (d.content ++ [13]).length = d.content.length + 1 ∧
    (∀ j, inodeAt fs.root file ≠ some j → (addNewline fs file).store j = fs.store j) ∧
    (∀ q, inodeAt fs.root q ≠ inodeAt fs.root file →
      lookup (addNewline fs file) q = lookup fs q) ∧
    (addNewline fs file).root = fs.root ∧
    getFiles (addNewline fs file) = getFiles fs := by
  refine ⟨?_, by simp, fun j hj => ?_, fun q hq => ?_, addNewline_root fs file,
    getFiles_addNewline fs file⟩
  · rw [lookup_addNewline, if_pos rfl, h, Option.map_some', appendCR_eq d hw]
  · rw [addNewline_store, if_neg hj]
  · rw [lookup_addNewline, if_neg hq]

/-- The witness of C2: the empty file becomes the one byte 0x0D, and `hello`
becomes `hello\r`. -/
theorem C2_addNewline_appends_witness :
    (lookup emptyFile ["a.txt"] = some (plain []) ∧ (plain []).writable ∧
      lookup (addNewline emptyFile ["a.txt"]) ["a.txt"] = some (plain [13])) ∧
    (lookup sample ["root", "c.txt"] = some (plain hello) ∧ (plain hello).writable ∧
      lookup (addNewline sample ["root", "c.txt"]) ["root", "c.txt"] =
        some (plain (hello ++ [13]))) :=
  ⟨⟨by decide, by decide,
      (C2_addNewline_appends emptyFile ["a.txt"] (plain []) (by decide) (by decide)).1⟩,
    ⟨by decide, by decide,
      (C2_addNewline_appends sample ["root", "c.txt"] (plain hello) (by decide) (by decide)).1⟩⟩

/-- C3 (counterexample): (1) `b.txt` holds `hello\n` and is enumerated, but it
cannot be opened for reading; the check fails, the fixer runs, and the file
ends as `hello\n\r`.  (2) `root/.git/config` is not enumerated, but the
enumerated symbolic link `root/cfg` names it, and fix appends 0x0D to it.
(3) `a.txt` and `b.txt` are hard links to one writable file without
terminator that cannot be read; fix appends 0x0D twice. -/
theorem C3_fix_changes_more :
    (["root", "b.txt"] ∈ (getFiles writeOnly).1 ∧
      lookup writeOnly ["root", "b.txt"] =
        some ⟨hello ++ [10], true, false, false, false, false⟩ ∧
      terminated (hello ++ [10]) ∧
      lookup (fixFunction false writeOnly).fs ["root", "b.txt"] =
        some ⟨hello ++ [10, 13], true, false, false, false, false⟩) ∧
    (["root", ".git", "config"] ∉ (getFiles gitLinked).1 ∧
      lookup gitLinked ["root", ".git", "config"] = some (plain hello) ∧
      lookup (fixFunction false gitLinked).fs ["root", ".git", "config"] =
        some (plain (hello ++ [13]))) ∧
    (["root", "a.txt"] ∈ (getFiles hardLinkedWriteOnly).1 ∧
      lookup hardLinkedWriteOnly ["root", "a.txt"] =
        some ⟨hello, true, false, false, false, false⟩ ∧
      ¬ terminated hello ∧
      lookup (fixFunction false hardLinkedWriteOnly).fs ["root", "a.txt"] =
        some ⟨hello ++ [13, 13], true, false, false, false, false⟩) := by
  decide

/-- C3 (amended): after a non-verbose fix, every file that the checker can
read and whose content ended in LF or CR is unchanged and no path that reaches
it is reported; every file that an enumerated path reaches, that can be read
and appended to and lacked a terminator, holds its old bytes followed by
exactly one 0x0D; every file that no enumerated path reaches, under its own
name or through a link, is unchanged; the tree of names is unchanged. -/
theorem C3_fix_frame (fs : FileSystem) :
    (∀ p d, lookup fs p = some d → d.readable → terminated d.content →
      lookup (fixFunction false fs).fs p = some d ∧
      ∀ rep, (fixFunction false fs).report = some rep → p ∉ rep.files) ∧
    (∀ p d, p ∈ (getFiles fs).1 → lookup fs p = some d → d.readable → d.writable →
      ¬ terminated d.content →
      lookup (fixFunction false fs).fs p = some { d with content := d.content ++ [13] }) ∧
    (∀ i, (∀ p ∈ (getFiles fs).1, inodeAt fs.root p ≠ some i) →
      (fixFunction false fs).fs.store i = fs.store i) ∧
    (∀ q, (∀ p ∈ (getFiles fs).1, inodeAt fs.root p ≠ inodeAt fs.root q) →
      lookup (fixFunction false fs).fs q = lookup fs q) ∧
    (fixFunction false fs).fs.root = fs.root := by
  refine ⟨fun p d hl hr ht => ⟨fix_lookup_stable fs p d hl hr ht, ?_⟩,
    fun p d hp hl hr hw hnt => fix_lookup_once fs p d hp hl hr hw hnt,
    fun i hi => fix_store_frame false fs i hi, fun q hq => ?_, fix_root false fs⟩
  · exact fix_not_reported fs p (check_true_of_terminated fs p d hl hr ht)
  · unfold lookup
    rw [fix_root]
    cases hi : inodeAt fs.root q with
    | none => rfl
    | some i =>
      simp only [Option.map_some', Option.some.injEq]
      exact fix_store_frame false fs i (fun p hp h => hq p hp (by rw [h, hi]))

/-- The witness of C3 on the three scenario files and on `root/.git/config`
of a tree without links. -/
theorem C3_fix_frame_witness :
    lookup (fixFunction false sample).fs ["root", "b.txt"] = some (plain (hello ++ [10])) ∧
    lookup (fixFunction false sample).fs ["root", "c.txt"] = some (plain (hello ++ [13])) ∧
    lookup (fixFunction false sample).fs ["root", "a.txt"] = some (plain [13]) ∧
    lookup (fixFunction false gitTree).fs ["root", ".git", "config"] = some (plain hello) :=
  ⟨((C3_fix_frame sample).1 ["root", "b.txt"] (plain (hello ++ [10]))
      (by decide) (by decide) (by decide)).1,
    (C3_fix_frame sample).2.1 ["root", "c.txt"] (plain hello)
      (by decide) (by decide) (by decide) (by decide) (by decide),
    (C3_fix_frame sample).2.1 ["root", "a.txt"] (plain [])
      (by decide) (by decide) (by decide) (by decide) (by decide),
    ((C3_fix_frame gitTree).2.2.2.1 ["root", ".git", "config"] (by decide)).trans (by decide)⟩

/-- C4 (counterexample): `c.txt` holds `hello` and cannot be opened for
appending; fix leaves it as it was and the scan that follows reports it. -/
theorem C4_scan_after_fix_reports_read_only :
    (scanFunction false (fixFunction false readOnly).fs).report =
      some ⟨1, [["root", "c.txt"]]⟩ := by
  decide

/-- C4 (amended): when every enumerated file that fails the check can be read
by the checker and appended to by the fixer, a scan of the tree left by fix
reports zero affected files. -/
theorem C4_fix_then_scan (fs : FileSystem)
    (hfix : ∀ p ∈ (getFiles fs).1, checkForNewlines fs p = false →
      ∃ d, lookup fs p = some d ∧ d.readable ∧ d.writable) :
    (scanFunction false (fixFunction false fs).fs).report = some ⟨0, []⟩ := by
  have hall : ∀ p ∈ (getFiles fs).1, checkForNewlines (fixFunction false fs).fs p = true := by
    rw [fix_fs_eq]
    exact fixLoop_all (getFiles fs).1 fs [] hfix
  rw [scan_report, fix_getFiles]
  have : (getFiles fs).1.filter (fun p => !checkForNewlines (fixFunction false fs).fs p) = [] := by
    rw [List.filter_eq_nil_iff]
    intro p hp
    simp [hall p hp]
  simp [this]

/-- The witness of C4 on the three scenario files. -/
theorem C4_fix_then_scan_witness :
    (scanFunction false (fixFunction false sample).fs).report = some ⟨0, []⟩ :=
  C4_fix_then_scan sample (by
    intro p hp _
    have hfiles : (getFiles sample).1 = [["root", "a.txt"], ["root", "b.txt"], ["root", "c.txt"]] := by
      decide
    rw [hfiles] at hp
    simp only [List.mem_cons, List.mem_singleton, List.not_mem_nil, or_false] at hp
    rcases hp with h | h | h <;> subst h
    · exact ⟨plain [], by decide, by decide, by decide⟩
    · exact ⟨plain (hello ++ [10]), by decide, by decide, by decide⟩
    · exact ⟨plain hello, by decide, by decide, by decide⟩)

/-- C5: when `q` is the path of a directory named `.git` in the tree, neither
`q` nor any path below it is in the result of `getFiles`, and scan and fix do
not report such a path; the file such a path reaches is left as it was by fix
unless an enumerated link outside `.git` reaches the same file.  On the tree
`root/.git/config`, `root/readme.txt` (no terminator) scan reports exactly
`root/readme.txt`. -/
theorem C5_git_pruned (fs : FileSystem) (q r : Path) (l : Bool) (cs : List Entry)
    (hgit : entryAt fs.root q = some (.dir ".git" l cs)) :
    q ++ r ∉ (getFiles fs).1 ∧
    (∀ v rep, (scanFunction v fs).report = some rep → q ++ r ∉ rep.files) ∧
    (∀ v rep, (fixFunction v fs).report = some rep → q ++ r ∉ rep.files) ∧
    (∀ v, (∀ p ∈ (getFiles fs).1, inodeAt fs.root p ≠ inodeAt fs.root (q ++ r)) →
      lookup (fixFunction v fs).fs (q ++ r) = lookup fs (q ++ r)) ∧
    (scanFunction false gitTree).report = some ⟨1, [["root", "readme.txt"]]⟩ := by
  have hmem : ".git" ∈ q ++ r := List.mem_append_left _ (entryAt_git_mem fs.root q l cs hgit)
  have hnot : q ++ r ∉ (getFiles fs).1 := fun h => (mem_getFiles fs _ h).1 hmem
  refine ⟨hnot, fun v rep h h2 => hnot (scan_report_subset v fs rep h _ h2),
    fun v rep h h2 => hnot (fix_report_subset v fs rep h _ h2),
    fun v hq => ?_, by decide⟩
  unfold lookup
  rw [fix_root]
  cases hi : inodeAt fs.root (q ++ r) with
  | none => rfl
  | some i =>
    simp only [Option.map_some', Option.some.injEq]
    exact fix_store_frame v fs i (fun p hp h => hq p hp (by rw [h, hi]))

/-- The witness of C5 on the tree `root/.git/config`, `root/readme.txt`. -/
theorem C5_git_pruned_witness :
    entryAt gitTree.root ["root", ".git"] =
      some (.dir ".git" true [.leaf "config" .regular (some 0)]) ∧
    ["root", ".git", "config"] ∉ (getFiles gitTree).1 ∧
    ["root", ".git"] ∉ (getFiles gitTree).1 :=
  ⟨rfl, (C5_git_pruned gitTree ["root", ".git"] ["config"] true _ rfl).1,
    by simpa using (C5_git_pruned gitTree ["root", ".git"] [] true _ rfl).1⟩

/-- C6 (counterexample): the tree has no name `.git`, lists no name twice and
is walked without error; `getFiles` returns the paths of a dangling symbolic
link, of a FIFO and of a symbolic link to a directory, none of which is a
regular file. -/
theorem C6_lists_links_and_special_files :
    withLinks.root.wf = true ∧ withLinks.root.hasName ".git" = false ∧
    (Walk withLinks.root walkFn []).2 = none ∧
    (getFiles withLinks).1 =
      [["root", "a.txt"], ["root", "ln"], ["root", "pipe"], ["root", "up"]] ∧
    (entryAt withLinks.root ["root", "ln"]).map Entry.isRegular = some false ∧
    (entryAt withLinks.root ["root", "pipe"]).map Entry.isRegular = some false ∧
    (entryAt withLinks.root ["root", "up"]).map Entry.isRegular = some false := by
  decide

/-- C6 (amended): for a tree in which no entry is named `.git` and whose walk
ends without error, `getFiles` returns no error and a list without repetition
whose members are exactly the paths of the non-directory entries of the tree:
regular files, and also symbolic links and special files; no directory is in
it and no regular file is missing. -/
theorem C6_getFiles_exact (fs : FileSystem) (hwf : fs.root.wf = true)
    (hgit : fs.root.hasName ".git" = false) (herr : (Walk fs.root walkFn []).2 = none) :
    (getFiles fs).2 = none ∧ (getFiles fs).1.Nodup ∧
    (∀ p, p ∈ (getFiles fs).1 ↔ ∃ x, entryAt fs.root p = some x ∧ x.isLeaf = true) ∧
    (∀ p x, entryAt fs.root p = some x → x.isRegular = true → p ∈ (getFiles fs).1) := by
  have hback : ∀ p x, entryAt fs.root p = some x → x.isLeaf = true → p ∈ (getFiles fs).1 := by
    intro p x hx hl
    apply getFiles_mem_of_entry fs herr p x hx hl
    cases p with
    | nil => simp
    | cons n rel =>
      exact descendIn_names ".git" [fs.root] n rel x hx (by simp [hasNameIn, hgit])
  refine ⟨getFiles_err fs, getFiles_nodup fs hwf, fun p => ⟨fun h => ?_, fun h => ?_⟩,
    fun p x hx hr => hback p x hx ?_⟩
  · exact (mem_getFiles fs p h).2 hwf
  · obtain ⟨x, hx, hl⟩ := h
    exact hback p x hx hl
  · cases x with
    | leaf n k t => rfl
    | dir n l cs => simp [Entry.isRegular] at hr
    | broken n => simp [Entry.isRegular] at hr

/-- The witness of C6 on a tree with a subdirectory and an empty directory,
and on the tree with links. -/
theorem C6_getFiles_exact_witness :
    nested.root.wf = true ∧ nested.root.hasName ".git" = false ∧
    (Walk nested.root walkFn []).2 = none ∧
    (getFiles nested).1 = [["root", "a.txt"], ["root", "sub", "x"], ["root", "z"]] ∧
    (getFiles nested).1.Nodup ∧
    (["root", "sub", "x"] ∈ (getFiles nested).1 ↔
      ∃ x, entryAt nested.root ["root", "sub", "x"] = some x ∧ x.isLeaf = true) ∧
    (["root", "sub"] ∈ (getFiles nested).1 ↔
      ∃ x, entryAt nested.root ["root", "sub"] = some x ∧ x.isLeaf = true) ∧
    (["root", "ln"] ∈ (getFiles withLinks).1 ↔
      ∃ x, entryAt withLinks.root ["root", "ln"] = some x ∧ x.isLeaf = true) :=
  ⟨by decide, by decide, by decide, by decide,
    (C6_getFiles_exact nested (by decide) (by decide) (by decide)).2.1,
    (C6_getFiles_exact nested (by decide) (by decide) (by decide)).2.2.1 _,
    (C6_getFiles_exact nested (by decide) (by decide) (by decide)).2.2.1 _,
    (C6_getFiles_exact withLinks (by decide) (by decide) (by decide)).2.2.1 _⟩

/-- C7 (counterexample): a regular file named `.git` that lies in no
directory named `.git` is left out of the result; and so is every file of a
tree in which one directory cannot be listed. -/
theorem C7_file_left_out :
    ((entryAt gitFile.root ["root", ".git"]).map Entry.isRegular = some true ∧
      lookup gitFile ["root", ".git"] = some (plain hello) ∧
      (entryAt gitFile.root ["root"]).map Entry.name = some "root" ∧
      ["root", ".git"] ∉ (getFiles gitFile).1) ∧
    ((entryAt unlistable.root ["root", "a.txt"]).map Entry.isRegular = some true ∧
      ["root", "a.txt"] ∉ (getFiles unlistable).1) := by
  decide

/-- C7 (amended): for a tree whose walk ends without error, the result of
`getFiles` holds exactly the paths that name a non-directory entry and have no
component `.git`: such entries are included whatever their kind, content and
permissions, and what is left out is what lies in a directory named `.git` and
the non-directory entries themselves named `.git`. -/
theorem C7_getFiles_mem (fs : FileSystem) (hwf : fs.root.wf = true)
    (herr : (Walk fs.root walkFn []).2 = none) (p : Path) :
    p ∈ (getFiles fs).1 ↔
      (∃ x, entryAt fs.root p = some x ∧ x.isLeaf = true) ∧ ".git" ∉ p := by
  constructor
  · intro h
    exact ⟨(mem_getFiles fs p h).2 hwf, (mem_getFiles fs p h).1⟩
  · rintro ⟨⟨x, hx, hl⟩, hg⟩
    exact getFiles_mem_of_entry fs herr p x hx hl hg

/-- The witness of C7: a write-only file is listed, and the file below `.git`
is not. -/
theorem C7_getFiles_mem_witness :
    (writeOnly.root.wf = true ∧ (Walk writeOnly.root walkFn []).2 = none ∧
      ["root", "b.txt"] ∈ (getFiles writeOnly).1) ∧
    (gitTree.root.wf = true ∧ (Walk gitTree.root walkFn []).2 = none ∧
      ["root", ".git", "config"] ∉ (getFiles gitTree).1) :=
  ⟨⟨by decide, by decide,
      (C7_getFiles_mem writeOnly (by decide) (by decide) ["root", "b.txt"]).mpr
        ⟨⟨_, rfl, rfl⟩, by decide⟩⟩,
    ⟨by decide, by decide,
      fun h => ((C7_getFiles_mem gitTree (by decide) (by decide) ["root", ".git", "config"]).mp
        h).2 (by decide)⟩⟩

/-- C8 (counterexample): `a.txt` and `b.txt` are hard links to one file
holding `hello`; scan reports both, fix reports `a.txt` only, because fixing
it makes the later check of `b.txt` succeed. -/
theorem C8_fix_reports_less_than_scan :
    hardLinked.root.wf = true ∧
    (scanFunction false hardLinked).report =
      some ⟨2, [["root", "a.txt"], ["root", "b.txt"]]⟩ ∧
    (fixFunction false hardLinked).report = some ⟨1, [["root", "a.txt"]]⟩ := by
  decide

/-- C8 (amended): the list a non-verbose scan reports is the enumerated list
filtered, in its order, by the check failing on the tree as it was before the
run, and the reported count is its length; it is a sublist of the enumerated
list and has no repetition.  The list a non-verbose fix reports, with its
length as count, is a sublist of the list scan reports, and a path scan
reports and fix leaves out reaches the same file as a path fix reports.  When
no two enumerated paths reach the same file, fix reports what scan reports:
fixing one file does not change the check of a path that reaches another
file. -/
theorem C8_reports (fs : FileSystem) (hwf : fs.root.wf = true) :
    (scanFunction false fs).report =
      some ⟨((getFiles fs).1.filter (fun p => !checkForNewlines fs p)).length,
        (getFiles fs).1.filter (fun p => !checkForNewlines fs p)⟩ ∧
    (∃ l, (fixFunction false fs).report = some ⟨l.length, l⟩ ∧
      l.Sublist ((getFiles fs).1.filter (fun p => !checkForNewlines fs p)) ∧
      ∀ p ∈ (getFiles fs).1, checkForNewlines fs p = false →
        p ∈ l ∨ ∃ q ∈ l, inodeAt fs.root q = inodeAt fs.root p) ∧
    ((getFiles fs).1.filter (fun p => !checkForNewlines fs p)).Sublist (getFiles fs).1 ∧
    ((getFiles fs).1.filter (fun p => !checkForNewlines fs p)).Nodup ∧
    (∀ p, p ∈ (getFiles fs).1.filter (fun p => !checkForNewlines fs p) ↔
      p ∈ (getFiles fs).1 ∧ checkForNewlines fs p = false) ∧
    (unaliased fs → (fixFunction false fs).report = (scanFunction false fs).report) ∧
    (∀ p q, inodeAt fs.root q ≠ inodeAt fs.root p →
      checkForNewlines (addNewline fs p) q = checkForNewlines fs q) := by
  obtain ⟨l, hl, hs⟩ := fix_report_sublist fs
  refine ⟨scan_report fs, ⟨l, hl, hs, fix_report_covers fs l hl⟩, List.filter_sublist _,
    (getFiles_nodup fs hwf).filter _, fun p => ?_, fun hu => ?_, fun p q hq => ?_⟩
  · simp [List.mem_filter]
  · rw [fix_report_eq, scan_report, fixLoop_unaliased (getFiles fs).1 fs [] hu]
    simp
  · apply check_congr
    rw [lookup_addNewline, if_neg hq]

/-- The witness of C8 on the three scenario files: scan and fix both report
`a.txt` and `c.txt`. -/
theorem C8_reports_witness :
    sample.root.wf = true ∧ unaliased sample ∧
    (scanFunction false sample).report = some ⟨2, [["root", "a.txt"], ["root", "c.txt"]]⟩ ∧
    (fixFunction false sample).report = some ⟨2, [["root", "a.txt"], ["root", "c.txt"]]⟩ :=
  ⟨by decide, by decide, (C8_reports sample (by decide)).1.trans (by decide),
    ((C8_reports sample (by decide)).2.2.2.2.2.1 (by decide)).trans (by decide)⟩

/-- C9 (the code at the failing inputs): for a root that does not exist and
for a tree with a directory that cannot be listed, the walk ends with an
error, yet `getFiles` returns the empty list with a nil error, and scan and
fix end with a nil error and a report of zero files. -/
theorem C9_traversal_error_swallowed :
    ((Walk missing.root walkFn []).2 = some (.lstat ["missing"]) ∧
      getFiles missing = ([], none) ∧
      (scanFunction false missing).err = none ∧
      (scanFunction false missing).report = some ⟨0, []⟩ ∧
      (fixFunction false missing).err = none ∧
      (fixFunction false missing).report = some ⟨0, []⟩) ∧
    ((Walk unlistable.root walkFn []).2 = some (.readDir ["root", "sub"]) ∧
      getFiles unlistable = ([], none) ∧
      (scanFunction false unlistable).err = none ∧
      (scanFunction false unlistable).report = some ⟨0, []⟩ ∧
      (fixFunction false unlistable).err = none ∧
      (fixFunction false unlistable).report = some ⟨0, []⟩) := by
  decide

/-- C10 (counterexample): `c.txt` holds the five bytes of `hello`; after two
runs of fix it holds `hello\r`, six bytes and not seven. -/
theorem C10_two_runs_grow_by_one :
    lookup sample ["root", "c.txt"] = some (plain hello) ∧
    ¬ terminated hello ∧
    lookup (fixFunction false (fixFunction false sample).fs).fs ["root", "c.txt"] =
      some (plain (hello ++ [13])) ∧
    (hello ++ [13]).length ≠ hello.length + 2 := by
  decide

/-- C10 (amended): an enumerated file that can be read and appended to and
lacked a terminator holds its old bytes followed by one 0x0D after the first
fix and still exactly that after the second fix, which does not report it: two
runs make it one byte longer.  Only `addNewline` called twice appends twice. -/
theorem C10_second_fix_keeps (fs : FileSystem) (p : Path) (d : FileData)
    (hp : p ∈ (getFiles fs).1) (hl : lookup fs p = some d) (hr : d.readable)
    (hw : d.writable) (hnt : ¬ terminated d.content) :
    lookup (fixFunction false fs).fs p = some { d with content := d.content ++ [13] } ∧
    lookup (fixFunction false (fixFunction false fs).fs).fs p =
      some { d with content := d.content ++ [13] } ∧
    (∀ rep, (fixFunction false (fixFunction false fs).fs).report = some rep → p ∉ rep.files) ∧
    lookup (addNewline (addNewline fs p) p) p =
      some { d with content := d.content ++ [13, 13] } := by
  have h1 := fix_lookup_once fs p d hp hl hr hw hnt
  have ht1 : terminated ({ d with content := d.content ++ [13] } : FileData).content := by
    right; simp
  have hr1 : ({ d with content := d.content ++ [13] } : FileData).readable := hr
  have hw1 : ({ d with content := d.content ++ [13] } : FileData).writable := hw
  refine ⟨h1, fix_lookup_stable _ p _ h1 hr1 ht1,
    fix_not_reported _ p (check_true_of_terminated _ p _ h1 hr1 ht1), ?_⟩
  rw [lookup_addNewline, if_pos rfl, lookup_addNewline, if_pos rfl, hl, Option.map_some',
    Option.map_some', appendCR_eq d hw, appendCR_eq _ hw1]
  simp

/-- The witness of C10 on `c.txt` of the scenario tree. -/
theorem C10_second_fix_keeps_witness :
    ["root", "c.txt"] ∈ (getFiles sample).1 ∧
    lookup sample ["root", "c.txt"] = some (plain hello) ∧ (plain hello).readable ∧
    (plain hello).writable ∧ ¬ terminated (plain hello).content ∧
    lookup (fixFunction false (fixFunction false sample).fs).fs ["root", "c.txt"] =
      some (plain (hello ++ [13])) :=
  ⟨by decide, by decide, by decide, by decide, by decide,
    (C10_second_fix_keeps sample ["root", "c.txt"] (plain hello) (by decide)
      (by decide) (by decide) (by decide) (by decide)).2.1⟩

end Linefix
